import Mathlib

/-!
Shallow embedding of the Markdown-to-terminal renderer of `llm-cli`
(`RenderMarkdown`, `renderLine`, `renderInlineFormatting` in the Go source).

Strings are modelled as `List Char` (Go strings are UTF-8; every pattern
character involved is ASCII, so rune-level modelling is faithful).  The Go
regular-expression replacements (`regexp.ReplaceAllString` with RE2
leftmost, non-greedy semantics) are modelled as explicit left-to-right
scanning functions: each pattern's capture class excludes the closing
delimiter, so the non-greedy closing position is forced to the first
occurrence of the delimiter, which the scanners implement directly.
-/

namespace LlmCli

/-- ANSI escape codes from the Go `const` block, as character lists. -/
def Reset : List Char := ['\x1b', '[', '0', 'm']

def Bold : List Char := ['\x1b', '[', '1', 'm']

def Italic : List Char := ['\x1b', '[', '3', 'm']

def Underline : List Char := ['\x1b', '[', '4', 'm']

def Red : List Char := ['\x1b', '[', '3', '1', 'm']

def Green : List Char := ['\x1b', '[', '3', '2', 'm']

def Yellow : List Char := ['\x1b', '[', '3', '3', 'm']

def Blue : List Char := ['\x1b', '[', '3', '4', 'm']

def Magenta : List Char := ['\x1b', '[', '3', '5', 'm']

def Cyan : List Char := ['\x1b', '[', '3', '6', 'm']

/-- The escape character that starts every ANSI code. -/
def esc : Char := '\x1b'

/-- The backtick character (code point 96). -/
def backtick : Char := Char.ofNat 96

/-- Scan for the first occurrence of delimiter `d`; the capture classes of
all the Go regexes exclude both the delimiter and `'\n'`, so the scan fails
if a newline (or the end of the text) is reached first.  On success returns
the characters before the delimiter and the characters after it. -/
def takeUntil (d : Char) : List Char → Option (List Char × List Char)
  | [] => none
  | c :: cs =>
    if c = d then some ([], cs)
    else if c = '\n' then none
    else
      match takeUntil d cs with
      | some (a, b) => some (c :: a, b)
      | none => none

theorem takeUntil_eq {d : Char} {cs a b : List Char}
    (h : takeUntil d cs = some (a, b)) : cs = a ++ d :: b ∧ d ∉ a ∧ '\n' ∉ a := by
  induction cs generalizing a b with
  | nil => simp [takeUntil] at h
  | cons c cs ih =>
    rw [takeUntil] at h
    by_cases hc : c = d
    · rw [if_pos hc] at h
      obtain ⟨rfl, rfl⟩ : [] = a ∧ cs = b := by simpa using h
      simp [hc]
    · rw [if_neg hc] at h
      by_cases hn : c = '\n'
      · rw [if_pos hn] at h; cases h
      · rw [if_neg hn] at h
        cases hh : takeUntil d cs with
        | none => rw [hh] at h; cases h
        | some p =>
          obtain ⟨a', b'⟩ := p
          rw [hh] at h
          obtain ⟨rfl, rfl⟩ : c :: a' = a ∧ b' = b := by simpa using h
          obtain ⟨h1, h2, h3⟩ := ih hh
          refine ⟨by simp [h1], ?_, ?_⟩
          · simp only [List.mem_cons, not_or]
            exact ⟨fun hd => hc hd.symm, h2⟩
          · simp only [List.mem_cons, not_or]
            exact ⟨fun hd => hn hd.symm, h3⟩

theorem takeUntil_len {d : Char} {cs a b : List Char}
    (h : takeUntil d cs = some (a, b)) : b.length ≤ cs.length := by
  have h1 := (takeUntil_eq h).1
  subst h1
  simp
  omega

theorem takeUntil_none_of_not_mem {d : Char} {cs : List Char} (h : d ∉ cs) :
    takeUntil d cs = none := by
  induction cs with
  | nil => rfl
  | cons c cs ih =>
    rw [takeUntil]
    rw [if_neg (fun hc : c = d => h (hc ▸ List.mem_cons_self c cs))]
    by_cases hn : c = '\n'
    · rw [if_pos hn]
    · rw [if_neg hn, ih (fun hm => h (List.mem_cons_of_mem _ hm))]

/-- One Go `ReplaceAllString` with a single-character delimiter pattern
`d([^d\n]*?)d` and replacement `pre ++ capture ++ post` (the italic and
inline-code rules). -/
def singlePass (d : Char) (pre post : List Char) : List Char → List Char
  | [] => []
  | c :: cs =>
    if c = d then
      match h : takeUntil d cs with
      | some (body, rest) => pre ++ body ++ post ++ singlePass d pre post rest
      | none => c :: singlePass d pre post cs
    else c :: singlePass d pre post cs
termination_by cs => cs.length
decreasing_by
  · simp only [List.length_cons]
    exact Nat.lt_succ_of_le (takeUntil_len h)
  · simp
  · simp

/-- One Go `ReplaceAllString` with a doubled delimiter pattern
`dd([^d\n]*?)dd` and replacement `pre ++ capture ++ post` (the two bold
rules).  Because the capture class excludes `d`, a match starting at a
doubled delimiter is forced to close at the first `d` after the opener,
and only succeeds if that `d` is immediately followed by another `d`;
otherwise RE2 retries from the next start position. -/
def doublePass (d : Char) (pre post : List Char) : List Char → List Char
  | [] => []
  | [c] => [c]
  | c1 :: c2 :: cs =>
    if c1 = d ∧ c2 = d then
      match h : takeUntil d cs with
      | some (body, after) =>
        match after with
        | a :: rest =>
          if a = d then pre ++ body ++ post ++ doublePass d pre post rest
          else c1 :: doublePass d pre post (c2 :: cs)
        | [] => c1 :: doublePass d pre post (c2 :: cs)
      | none => c1 :: doublePass d pre post (c2 :: cs)
    else c1 :: doublePass d pre post (c2 :: cs)
termination_by cs => cs.length
decreasing_by
  · have hb := takeUntil_len h
    simp only [List.length_cons] at hb ⊢
    omega
  · simp
  · simp
  · simp
  · simp

/-- The Go link rule `\[([^\]\n]*?)\]\([^)\n]*?\)` with replacement
`Blue+Underline+label+Reset`; the target inside the parentheses is
discarded. -/
def linkPass : List Char → List Char
  | [] => []
  | c :: cs =>
    if c = '[' then
      match h1 : takeUntil ']' cs with
      | some (txt, after1) =>
        if after1.head? = some '(' then
          match h2 : takeUntil ')' after1.tail with
          | some (_url, after2) => Blue ++ Underline ++ txt ++ Reset ++ linkPass after2
          | none => c :: linkPass cs
        else c :: linkPass cs
      | none => c :: linkPass cs
    else c :: linkPass cs
termination_by cs => cs.length
decreasing_by
  · have ha := takeUntil_len h1
    have hb := takeUntil_len h2
    have ht : after1.tail.length ≤ after1.length := by
      cases after1 <;> simp
    simp only [List.length_cons]
    omega
  · simp
  · simp
  · simp
  · simp

/-- Go `renderInlineFormatting`: the six replacement passes in source
order (bold `**`, bold `__`, italic `*`, italic `_`, inline code, link). -/
def renderInlineFormatting (text : List Char) : List Char :=
  linkPass
    (singlePass backtick Cyan Reset
      (singlePass '_' Italic Reset
        (singlePass '*' Italic Reset
          (doublePass '_' Bold Reset
            (doublePass '*' Bold Reset text)))))

/-- Go `strings.TrimPrefix`: drop `p` if it is a prefix, else identity. -/
def trimPref (p s : List Char) : List Char :=
  if p.isPrefixOf s then s.drop p.length else s

/-- Go's `^(\d+\. )(.*)` submatch on a line: if the line starts with one or
more digits followed by `". "`, return the numeral-and-punctuation prefix
and the rest of the line up to a newline (`.` does not match `'\n'`). -/
def numberedSplit (line : List Char) : Option (List Char × List Char) :=
  match line.drop (line.takeWhile Char.isDigit).length with
  | '.' :: ' ' :: r =>
    if line.takeWhile Char.isDigit = [] then none
    else some (line.takeWhile Char.isDigit ++ ['.', ' '], r.takeWhile (fun c => c ≠ '\n'))
  | _ => none

/-- Go `renderLine`: headers, code-fence marker, bullet items, numbered
items, otherwise inline formatting.  Note that the bullet branch applies
`TrimPrefix "- "` and then `TrimPrefix "* "` to the same line, and that
neither the bullet branch nor the numbered branch calls
`renderInlineFormatting`. -/
def renderLine (line : List Char) : List Char :=
  if ("### ".toList).isPrefixOf line then Yellow ++ Bold ++ trimPref ("### ".toList) line ++ Reset
  else if ("## ".toList).isPrefixOf line then Blue ++ Bold ++ trimPref ("## ".toList) line ++ Reset
  else if ("# ".toList).isPrefixOf line then Magenta ++ Bold ++ trimPref ("# ".toList) line ++ Reset
  else if ("```".toList).isPrefixOf line then Cyan ++ line ++ Reset
  else if ("- ".toList).isPrefixOf line ∨ ("* ".toList).isPrefixOf line then
    Green ++ "• ".toList ++ Reset ++ trimPref ("* ".toList) (trimPref ("- ".toList) line)
  else
    match numberedSplit line with
    | some (p, r) => Yellow ++ p ++ Reset ++ r
    | none => renderInlineFormatting line

/-- Go `strings.Split(s, "\n")` at character level. -/
def splitNl : List Char → List (List Char)
  | [] => [[]]
  | c :: cs =>
    if c = '\n' then [] :: splitNl cs
    else
      match splitNl cs with
      | t :: ts => (c :: t) :: ts
      | [] => [[c]]

/-- Go `strings.TrimSuffix(s, "\n")`: remove one trailing newline. -/
def trimOneNl (s : List Char) : List Char :=
  if s.getLast? = some '\n' then s.dropLast else s

/-- Go `RenderMarkdown`: split on newlines, render each line, append a
newline after each rendered line into the builder, finally trim the single
trailing newline. -/
def RenderMarkdown (markdown : List Char) : List Char :=
  trimOneNl ((splitNl markdown).foldl (fun acc line => acc ++ renderLine line ++ ['\n']) [])

/-- Decidable check that the last escape character in a string starts a
`Reset` code; `true` when the string has no escape character at all.  This
expresses that a rendered line is self-contained: a `Reset` occurs at (and
hence after) the position of the final escape code, so no inserted style
code is left open at the end of the line. -/
def lastEscOK : List Char → Bool
  | [] => true
  | c :: cs =>
    if c = esc then
      if esc ∈ cs then lastEscOK cs
      else Reset.isPrefixOf (c :: cs)
    else lastEscOK cs

/-! ### Unfolding lemmas for the replacement passes -/

theorem singlePass_nil (d : Char) (pre post : List Char) :
    singlePass d pre post [] = [] := by
  rw [singlePass]

theorem singlePass_cons_match {d : Char} {cs body rest : List Char} (pre post : List Char)
    (h : takeUntil d cs = some (body, rest)) :
    singlePass d pre post (d :: cs) = pre ++ body ++ post ++ singlePass d pre post rest := by
  rw [singlePass, if_pos rfl]
  split
  next b r heq =>
    rw [h] at heq
    obtain ⟨rfl, rfl⟩ : body = b ∧ rest = r := by simpa using heq
    simp
  next heq => rw [h] at heq; cases heq

theorem singlePass_cons_nomatch {d : Char} {cs : List Char} (pre post : List Char)
    (h : takeUntil d cs = none) :
    singlePass d pre post (d :: cs) = d :: singlePass d pre post cs := by
  rw [singlePass, if_pos rfl]
  split
  next b r heq => rw [h] at heq; cases heq
  next heq => rfl

theorem singlePass_cons_ne {d c : Char} (pre post : List Char) (cs : List Char)
    (h : c ≠ d) :
    singlePass d pre post (c :: cs) = c :: singlePass d pre post cs := by
  rw [singlePass]
  simp [h]

theorem doublePass_nil (d : Char) (pre post : List Char) :
    doublePass d pre post [] = [] := by
  rw [doublePass]

theorem doublePass_one (d c : Char) (pre post : List Char) :
    doublePass d pre post [c] = [c] := by
  rw [doublePass]

theorem doublePass_cons_match {d : Char} {cs body rest : List Char} (pre post : List Char)
    (h : takeUntil d cs = some (body, d :: rest)) :
    doublePass d pre post (d :: d :: cs) =
      pre ++ body ++ post ++ doublePass d pre post rest := by
  rw [doublePass, if_pos ⟨rfl, rfl⟩]
  split
  next b aft heq =>
    rw [h] at heq
    obtain ⟨rfl, rfl⟩ : body = b ∧ d :: rest = aft := by simpa using heq
    simp
  next heq => rw [h] at heq; cases heq

theorem doublePass_cons_noclose {d : Char} {cs body : List Char} {after : List Char}
    (pre post : List Char) (h : takeUntil d cs = some (body, after))
    (hne : after.head? ≠ some d) :
    doublePass d pre post (d :: d :: cs) = d :: doublePass d pre post (d :: cs) := by
  rw [doublePass, if_pos ⟨rfl, rfl⟩]
  split
  next b aft heq =>
    rw [h] at heq
    obtain ⟨rfl, rfl⟩ : body = b ∧ after = aft := by simpa using heq
    cases after with
    | nil => rfl
    | cons a rest =>
      have ha : a ≠ d := by
        intro had
        exact hne (by simp [had])
      simp [ha]
  next heq => simp [h] at heq

theorem doublePass_cons_nomatch {d : Char} {cs : List Char} (pre post : List Char)
    (h : takeUntil d cs = none) :
    doublePass d pre post (d :: d :: cs) = d :: doublePass d pre post (d :: cs) := by
  rw [doublePass, if_pos ⟨rfl, rfl⟩]
  split
  next b aft heq => rw [h] at heq; cases heq
  next heq => rfl

theorem doublePass_cons₂_ne {d c1 c2 : Char} (pre post : List Char) (cs : List Char)
    (h : ¬(c1 = d ∧ c2 = d)) :
    doublePass d pre post (c1 :: c2 :: cs) = c1 :: doublePass d pre post (c2 :: cs) := by
  rw [doublePass, if_neg h]

theorem doublePass_cons_ne {d c : Char} (pre post : List Char) (cs : List Char)
    (h : c ≠ d) :
    doublePass d pre post (c :: cs) = c :: doublePass d pre post cs := by
  cases cs with
  | nil => rw [doublePass, doublePass]
  | cons c2 cs => exact doublePass_cons₂_ne pre post cs (fun hc => h hc.1)

theorem linkPass_nil : linkPass [] = [] := by
  rw [linkPass]

theorem linkPass_cons_ne {c : Char} (cs : List Char) (h : c ≠ '[') :
    linkPass (c :: cs) = c :: linkPass cs := by
  rw [linkPass, if_neg h]

theorem linkPass_cons_match {cs txt cs2 url after2 : List Char}
    (h1 : takeUntil ']' cs = some (txt, '(' :: cs2))
    (h2 : takeUntil ')' cs2 = some (url, after2)) :
    linkPass ('[' :: cs) = Blue ++ Underline ++ txt ++ Reset ++ linkPass after2 := by
  rw [linkPass, if_pos rfl]
  split
  next t a1 heq =>
    rw [h1] at heq
    obtain ⟨rfl, rfl⟩ : txt = t ∧ ('(' :: cs2 : List Char) = a1 := by simpa using heq
    rw [if_pos (by rfl)]
    split
    next u a2 heq3 =>
      rw [show ('(' :: cs2 : List Char).tail = cs2 from rfl, h2] at heq3
      obtain ⟨rfl, rfl⟩ : url = u ∧ after2 = a2 := by simpa using heq3
      simp
    next heq3 => simp [h2] at heq3
  next heq => simp [h1] at heq

theorem linkPass_cons_nomatch {cs : List Char} (h : takeUntil ']' cs = none) :
    linkPass ('[' :: cs) = '[' :: linkPass cs := by
  rw [linkPass, if_pos rfl]
  split
  next t a1 heq => simp [h] at heq
  next heq => rfl

theorem linkPass_cons_noparen {cs txt after1 : List Char}
    (h1 : takeUntil ']' cs = some (txt, after1)) (h2 : after1.head? ≠ some '(') :
    linkPass ('[' :: cs) = '[' :: linkPass cs := by
  rw [linkPass, if_pos rfl]
  split
  next t a1 heq =>
    rw [h1] at heq
    obtain ⟨rfl, rfl⟩ : txt = t ∧ after1 = a1 := by simpa using heq
    rw [if_neg h2]
  next heq => simp [h1] at heq

theorem linkPass_cons_nourl {cs txt cs2 : List Char}
    (h1 : takeUntil ']' cs = some (txt, '(' :: cs2))
    (h2 : takeUntil ')' cs2 = none) :
    linkPass ('[' :: cs) = '[' :: linkPass cs := by
  rw [linkPass, if_pos rfl]
  split
  next t a1 heq =>
    rw [h1] at heq
    obtain ⟨rfl, rfl⟩ : txt = t ∧ ('(' :: cs2 : List Char) = a1 := by simpa using heq
    rw [if_pos (by rfl)]
    split
    next u a2 heq3 =>
      rw [show ('(' :: cs2 : List Char).tail = cs2 from rfl, h2] at heq3
      cases heq3
    next heq3 => rfl
  next heq => simp [h1] at heq

/-! ### Identity lemmas: a pass whose delimiter is absent is a no-op -/

theorem singlePass_id {d : Char} (pre post : List Char) {cs : List Char} (h : d ∉ cs) :
    singlePass d pre post cs = cs := by
  induction cs with
  | nil => exact singlePass_nil d pre post
  | cons c cs ih =>
    have hc : c ≠ d := fun hc => h (hc ▸ List.mem_cons_self c cs)
    rw [singlePass_cons_ne pre post cs hc, ih (fun hm => h (List.mem_cons_of_mem _ hm))]

theorem doublePass_id {d : Char} (pre post : List Char) {cs : List Char} (h : d ∉ cs) :
    doublePass d pre post cs = cs := by
  induction cs with
  | nil => exact doublePass_nil d pre post
  | cons c cs ih =>
    have hc : c ≠ d := fun hc => h (hc ▸ List.mem_cons_self c cs)
    rw [doublePass_cons_ne pre post cs hc, ih (fun hm => h (List.mem_cons_of_mem _ hm))]

theorem linkPass_id_no_open {cs : List Char} (h : '[' ∉ cs) : linkPass cs = cs := by
  induction cs with
  | nil => exact linkPass_nil
  | cons c cs ih =>
    have hc : c ≠ '[' := fun hc => h (hc ▸ List.mem_cons_self c cs)
    rw [linkPass_cons_ne cs hc, ih (fun hm => h (List.mem_cons_of_mem _ hm))]

theorem linkPass_id_no_close {cs : List Char} (h : ']' ∉ cs) : linkPass cs = cs := by
  induction cs with
  | nil => exact linkPass_nil
  | cons c cs ih =>
    have hcs : ']' ∉ cs := fun hm => h (List.mem_cons_of_mem _ hm)
    by_cases hc : c = '['
    · subst hc
      rw [linkPass_cons_nomatch (takeUntil_none_of_not_mem hcs), ih hcs]
    · rw [linkPass_cons_ne cs hc, ih hcs]

/-! ### Membership lemmas: output characters come from the input or the
inserted code constants -/

theorem mem_singlePass {d : Char} {pre post cs : List Char} {x : Char}
    (hx : x ∈ singlePass d pre post cs) : x ∈ pre ∨ x ∈ post ∨ x ∈ cs := by
  induction cs using singlePass.induct d pre post with
  | case1 => rw [singlePass_nil] at hx; cases hx
  | case2 cs body rest h ih =>
    rw [singlePass_cons_match pre post h] at hx
    have hcs : cs = body ++ d :: rest := (takeUntil_eq h).1
    simp only [List.append_assoc, List.mem_append] at hx
    rcases hx with hp | hb | hpo | hr
    · exact Or.inl hp
    · refine Or.inr (Or.inr ?_)
      exact List.mem_cons_of_mem _ (hcs ▸ List.mem_append_left _ hb)
    · exact Or.inr (Or.inl hpo)
    · rcases ih hr with hp | hpo | hr'
      · exact Or.inl hp
      · exact Or.inr (Or.inl hpo)
      · refine Or.inr (Or.inr ?_)
        refine List.mem_cons_of_mem _ ?_
        rw [hcs]
        exact List.mem_append_right _ (List.mem_cons_of_mem _ hr')
  | case3 cs h ih =>
    rw [singlePass_cons_nomatch pre post h] at hx
    rcases List.mem_cons.mp hx with rfl | hx'
    · exact Or.inr (Or.inr (List.mem_cons_self _ _))
    · rcases ih hx' with hp | hpo | hr'
      · exact Or.inl hp
      · exact Or.inr (Or.inl hpo)
      · exact Or.inr (Or.inr (List.mem_cons_of_mem _ hr'))
  | case4 c cs hne ih =>
    rw [singlePass_cons_ne pre post cs hne] at hx
    rcases List.mem_cons.mp hx with rfl | hx'
    · exact Or.inr (Or.inr (List.mem_cons_self _ _))
    · rcases ih hx' with hp | hpo | hr'
      · exact Or.inl hp
      · exact Or.inr (Or.inl hpo)
      · exact Or.inr (Or.inr (List.mem_cons_of_mem _ hr'))

theorem mem_doublePass {d : Char} {pre post cs : List Char} {x : Char}
    (hx : x ∈ doublePass d pre post cs) : x ∈ pre ∨ x ∈ post ∨ x ∈ cs := by
  induction cs using doublePass.induct d pre post with
  | case1 => rw [doublePass_nil] at hx; cases hx
  | case2 c => rw [doublePass_one] at hx; exact Or.inr (Or.inr hx)
  | case3 c1 c2 cs hc body rest h h2 ih =>
    rw [hc.1, hc.2] at hx ⊢
    rw [doublePass_cons_match pre post h] at hx
    have hcs : cs = body ++ d :: d :: rest := (takeUntil_eq h).1
    simp only [List.append_assoc, List.mem_append] at hx
    rcases hx with hp | hb | hpo | hr
    · exact Or.inl hp
    · refine Or.inr (Or.inr ?_)
      refine List.mem_cons_of_mem _ (List.mem_cons_of_mem _ ?_)
      exact hcs ▸ List.mem_append_left _ hb
    · exact Or.inr (Or.inl hpo)
    · rcases ih hr with hp | hpo | hr'
      · exact Or.inl hp
      · exact Or.inr (Or.inl hpo)
      · refine Or.inr (Or.inr ?_)
        refine List.mem_cons_of_mem _ (List.mem_cons_of_mem _ ?_)
        rw [hcs]
        exact List.mem_append_right _ (List.mem_cons_of_mem _ (List.mem_cons_of_mem _ hr'))
  | case4 c1 c2 cs hc body a rest h ha h2 ih =>
    rw [hc.1, hc.2] at hx ⊢
    rw [hc.2] at ih
    rw [doublePass_cons_noclose pre post h (by simp [ha])] at hx
    rcases List.mem_cons.mp hx with rfl | hx'
    · exact Or.inr (Or.inr (List.mem_cons_self _ _))
    · rcases ih hx' with hp | hpo | hr'
      · exact Or.inl hp
      · exact Or.inr (Or.inl hpo)
      · exact Or.inr (Or.inr (List.mem_cons_of_mem _ hr'))
  | case5 c1 c2 cs hc body h h2 ih =>
    rw [hc.1, hc.2] at hx ⊢
    rw [hc.2] at ih
    rw [doublePass_cons_noclose pre post h (by simp)] at hx
    rcases List.mem_cons.mp hx with rfl | hx'
    · exact Or.inr (Or.inr (List.mem_cons_self _ _))
    · rcases ih hx' with hp | hpo | hr'
      · exact Or.inl hp
      · exact Or.inr (Or.inl hpo)
      · exact Or.inr (Or.inr (List.mem_cons_of_mem _ hr'))
  | case6 c1 c2 cs hc h ih =>
    rw [hc.1, hc.2] at hx ⊢
    rw [hc.2] at ih
    rw [doublePass_cons_nomatch pre post h] at hx
    rcases List.mem_cons.mp hx with rfl | hx'
    · exact Or.inr (Or.inr (List.mem_cons_self _ _))
    · rcases ih hx' with hp | hpo | hr'
      · exact Or.inl hp
      · exact Or.inr (Or.inl hpo)
      · exact Or.inr (Or.inr (List.mem_cons_of_mem _ hr'))
  | case7 c1 c2 cs hc ih =>
    rw [doublePass_cons₂_ne pre post cs hc] at hx
    rcases List.mem_cons.mp hx with rfl | hx'
    · exact Or.inr (Or.inr (List.mem_cons_self _ _))
    · rcases ih hx' with hp | hpo | hr'
      · exact Or.inl hp
      · exact Or.inr (Or.inl hpo)
      · exact Or.inr (Or.inr (List.mem_cons_of_mem _ hr'))

theorem head_eq_paren {after1 : List Char} (hhd : after1.head? = some '(') :
    after1 = '(' :: after1.tail := by
  cases after1 with
  | nil => cases hhd
  | cons a t =>
    have ha : a = '(' := by simpa using hhd
    simp [ha]

theorem mem_linkPass {cs : List Char} {x : Char} (hx : x ∈ linkPass cs) :
    x ∈ Blue ∨ x ∈ Underline ∨ x ∈ Reset ∨ x ∈ cs := by
  induction cs using linkPass.induct with
  | case1 => rw [linkPass_nil] at hx; cases hx
  | case2 cs txt after1 h1 hhd url after2 h2 ih =>
    have hsplit := head_eq_paren hhd
    rw [hsplit] at h1
    rw [linkPass_cons_match h1 h2] at hx
    have hcs : cs = txt ++ ']' :: '(' :: after1.tail := (takeUntil_eq h1).1
    have ht : after1.tail = url ++ ')' :: after2 := (takeUntil_eq h2).1
    simp only [List.append_assoc, List.mem_append] at hx
    rcases hx with hb | hu | htt | hre | hr
    · exact Or.inl hb
    · exact Or.inr (Or.inl hu)
    · refine Or.inr (Or.inr (Or.inr ?_))
      exact List.mem_cons_of_mem _ (hcs ▸ List.mem_append_left _ htt)
    · exact Or.inr (Or.inr (Or.inl hre))
    · rcases ih hr with hb | hu | hre | hr'
      · exact Or.inl hb
      · exact Or.inr (Or.inl hu)
      · exact Or.inr (Or.inr (Or.inl hre))
      · refine Or.inr (Or.inr (Or.inr ?_))
        refine List.mem_cons_of_mem _ ?_
        rw [hcs]
        refine List.mem_append_right _ ?_
        refine List.mem_cons_of_mem _ (List.mem_cons_of_mem _ ?_)
        rw [ht]
        exact List.mem_append_right _ (List.mem_cons_of_mem _ hr')
  | case3 cs txt after1 h1 hhd h2 ih =>
    have hsplit := head_eq_paren hhd
    rw [hsplit] at h1
    rw [linkPass_cons_nourl h1 h2] at hx
    rcases List.mem_cons.mp hx with rfl | hx'
    · exact Or.inr (Or.inr (Or.inr (List.mem_cons_self _ _)))
    · rcases ih hx' with hb | hu | hre | hr'
      · exact Or.inl hb
      · exact Or.inr (Or.inl hu)
      · exact Or.inr (Or.inr (Or.inl hre))
      · exact Or.inr (Or.inr (Or.inr (List.mem_cons_of_mem _ hr')))
  | case4 cs txt after1 h1 hhd ih =>
    rw [linkPass_cons_noparen h1 hhd] at hx
    rcases List.mem_cons.mp hx with rfl | hx'
    · exact Or.inr (Or.inr (Or.inr (List.mem_cons_self _ _)))
    · rcases ih hx' with hb | hu | hre | hr'
      · exact Or.inl hb
      · exact Or.inr (Or.inl hu)
      · exact Or.inr (Or.inr (Or.inl hre))
      · exact Or.inr (Or.inr (Or.inr (List.mem_cons_of_mem _ hr')))
  | case5 cs h ih =>
    rw [linkPass_cons_nomatch h] at hx
    rcases List.mem_cons.mp hx with rfl | hx'
    · exact Or.inr (Or.inr (Or.inr (List.mem_cons_self _ _)))
    · rcases ih hx' with hb | hu | hre | hr'
      · exact Or.inl hb
      · exact Or.inr (Or.inl hu)
      · exact Or.inr (Or.inr (Or.inl hre))
      · exact Or.inr (Or.inr (Or.inr (List.mem_cons_of_mem _ hr')))
  | case6 c cs hne ih =>
    rw [linkPass_cons_ne cs hne] at hx
    rcases List.mem_cons.mp hx with rfl | hx'
    · exact Or.inr (Or.inr (Or.inr (List.mem_cons_self _ _)))
    · rcases ih hx' with hb | hu | hre | hr'
      · exact Or.inl hb
      · exact Or.inr (Or.inl hu)
      · exact Or.inr (Or.inr (Or.inl hre))
      · exact Or.inr (Or.inr (Or.inr (List.mem_cons_of_mem _ hr')))

/-! ### Characters of the input survive a pass (or the pass inserted its
`post` constant); a pass whose output misses a `post` character was a
no-op -/

theorem mem_singlePass_of_mem {d x : Char} {pre post cs : List Char}
    (hp : x ∈ post) (h : x ∈ cs) : x ∈ singlePass d pre post cs := by
  induction cs using singlePass.induct d pre post with
  | case1 => cases h
  | case2 cs body rest hh ih =>
    rw [singlePass_cons_match pre post hh]
    simp only [List.append_assoc, List.mem_append]
    exact Or.inr (Or.inr (Or.inl hp))
  | case3 cs hh ih =>
    rw [singlePass_cons_nomatch pre post hh]
    rcases List.mem_cons.mp h with rfl | h'
    · exact List.mem_cons_self _ _
    · exact List.mem_cons_of_mem _ (ih h')
  | case4 c cs hne ih =>
    rw [singlePass_cons_ne pre post cs hne]
    rcases List.mem_cons.mp h with rfl | h'
    · exact List.mem_cons_self _ _
    · exact List.mem_cons_of_mem _ (ih h')

theorem mem_doublePass_of_mem {d x : Char} {pre post cs : List Char}
    (hp : x ∈ post) (h : x ∈ cs) : x ∈ doublePass d pre post cs := by
  induction cs using doublePass.induct d pre post with
  | case1 => cases h
  | case2 c => rw [doublePass_one]; exact h
  | case3 c1 c2 cs hc body rest hh h2 ih =>
    rw [hc.1, hc.2] at h ⊢
    rw [doublePass_cons_match pre post hh]
    simp only [List.append_assoc, List.mem_append]
    exact Or.inr (Or.inr (Or.inl hp))
  | case4 c1 c2 cs hc body a rest hh ha h2 ih =>
    rw [hc.1, hc.2] at h ⊢
    rw [hc.2] at ih
    rw [doublePass_cons_noclose pre post hh (by simp [ha])]
    rcases List.mem_cons.mp h with rfl | h'
    · exact List.mem_cons_self _ _
    · exact List.mem_cons_of_mem _ (ih h')
  | case5 c1 c2 cs hc body hh h2 ih =>
    rw [hc.1, hc.2] at h ⊢
    rw [hc.2] at ih
    rw [doublePass_cons_noclose pre post hh (by simp)]
    rcases List.mem_cons.mp h with rfl | h'
    · exact List.mem_cons_self _ _
    · exact List.mem_cons_of_mem _ (ih h')
  | case6 c1 c2 cs hc hh ih =>
    rw [hc.1, hc.2] at h ⊢
    rw [hc.2] at ih
    rw [doublePass_cons_nomatch pre post hh]
    rcases List.mem_cons.mp h with rfl | h'
    · exact List.mem_cons_self _ _
    · exact List.mem_cons_of_mem _ (ih h')
  | case7 c1 c2 cs hc ih =>
    rw [doublePass_cons₂_ne pre post cs hc]
    rcases List.mem_cons.mp h with rfl | h'
    · exact List.mem_cons_self _ _
    · exact List.mem_cons_of_mem _ (ih h')

theorem mem_linkPass_of_mem {x : Char} {cs : List Char}
    (hp : x ∈ Reset) (h : x ∈ cs) : x ∈ linkPass cs := by
  induction cs using linkPass.induct with
  | case1 => cases h
  | case2 cs txt after1 h1 hhd url after2 h2 ih =>
    have hsplit := head_eq_paren hhd
    rw [hsplit] at h1
    rw [linkPass_cons_match h1 h2]
    simp only [List.append_assoc, List.mem_append]
    exact Or.inr (Or.inr (Or.inr (Or.inl hp)))
  | case3 cs txt after1 h1 hhd h2 ih =>
    have hsplit := head_eq_paren hhd
    rw [hsplit] at h1
    rw [linkPass_cons_nourl h1 h2]
    rcases List.mem_cons.mp h with rfl | h'
    · exact List.mem_cons_self _ _
    · exact List.mem_cons_of_mem _ (ih h')
  | case4 cs txt after1 h1 hhd ih =>
    rw [linkPass_cons_noparen h1 hhd]
    rcases List.mem_cons.mp h with rfl | h'
    · exact List.mem_cons_self _ _
    · exact List.mem_cons_of_mem _ (ih h')
  | case5 cs hh ih =>
    rw [linkPass_cons_nomatch hh]
    rcases List.mem_cons.mp h with rfl | h'
    · exact List.mem_cons_self _ _
    · exact List.mem_cons_of_mem _ (ih h')
  | case6 c cs hne ih =>
    rw [linkPass_cons_ne cs hne]
    rcases List.mem_cons.mp h with rfl | h'
    · exact List.mem_cons_self _ _
    · exact List.mem_cons_of_mem _ (ih h')

theorem singlePass_eq_of_not_mem {d x : Char} {pre post cs : List Char}
    (hp : x ∈ post) (h : x ∉ singlePass d pre post cs) :
    singlePass d pre post cs = cs := by
  induction cs using singlePass.induct d pre post with
  | case1 => rw [singlePass_nil]
  | case2 cs body rest hh ih =>
    exfalso
    apply h
    rw [singlePass_cons_match pre post hh]
    simp only [List.append_assoc, List.mem_append]
    exact Or.inr (Or.inr (Or.inl hp))
  | case3 cs hh ih =>
    rw [singlePass_cons_nomatch pre post hh] at h ⊢
    rw [ih (fun hm => h (List.mem_cons_of_mem _ hm))]
  | case4 c cs hne ih =>
    rw [singlePass_cons_ne pre post cs hne] at h ⊢
    rw [ih (fun hm => h (List.mem_cons_of_mem _ hm))]

theorem doublePass_eq_of_not_mem {d x : Char} {pre post cs : List Char}
    (hp : x ∈ post) (h : x ∉ doublePass d pre post cs) :
    doublePass d pre post cs = cs := by
  induction cs using doublePass.induct d pre post with
  | case1 => rw [doublePass_nil]
  | case2 c => rw [doublePass_one]
  | case3 c1 c2 cs hc body rest hh h2 ih =>
    exfalso
    apply h
    rw [hc.1, hc.2]
    rw [doublePass_cons_match pre post hh]
    simp only [List.append_assoc, List.mem_append]
    exact Or.inr (Or.inr (Or.inl hp))
  | case4 c1 c2 cs hc body a rest hh ha h2 ih =>
    rw [hc.1, hc.2] at h ⊢
    rw [hc.2] at ih
    rw [doublePass_cons_noclose pre post hh (by simp [ha])] at h ⊢
    rw [ih (fun hm => h (List.mem_cons_of_mem _ hm))]
  | case5 c1 c2 cs hc body hh h2 ih =>
    rw [hc.1, hc.2] at h ⊢
    rw [hc.2] at ih
    rw [doublePass_cons_noclose pre post hh (by simp)] at h ⊢
    rw [ih (fun hm => h (List.mem_cons_of_mem _ hm))]
  | case6 c1 c2 cs hc hh ih =>
    rw [hc.1, hc.2] at h ⊢
    rw [hc.2] at ih
    rw [doublePass_cons_nomatch pre post hh] at h ⊢
    rw [ih (fun hm => h (List.mem_cons_of_mem _ hm))]
  | case7 c1 c2 cs hc ih =>
    rw [doublePass_cons₂_ne pre post cs hc] at h ⊢
    rw [ih (fun hm => h (List.mem_cons_of_mem _ hm))]

theorem linkPass_eq_of_not_mem {x : Char} {cs : List Char}
    (hp : x ∈ Reset) (h : x ∉ linkPass cs) :
    linkPass cs = cs := by
  induction cs using linkPass.induct with
  | case1 => rw [linkPass_nil]
  | case2 cs txt after1 h1 hhd url after2 h2 ih =>
    exfalso
    apply h
    have hsplit := head_eq_paren hhd
    rw [hsplit] at h1
    rw [linkPass_cons_match h1 h2]
    simp only [List.append_assoc, List.mem_append]
    exact Or.inr (Or.inr (Or.inr (Or.inl hp)))
  | case3 cs txt after1 h1 hhd h2 ih =>
    have hsplit := head_eq_paren hhd
    rw [hsplit] at h1
    rw [linkPass_cons_nourl h1 h2] at h ⊢
    rw [ih (fun hm => h (List.mem_cons_of_mem _ hm))]
  | case4 cs txt after1 h1 hhd ih =>
    rw [linkPass_cons_noparen h1 hhd] at h ⊢
    rw [ih (fun hm => h (List.mem_cons_of_mem _ hm))]
  | case5 cs hh ih =>
    rw [linkPass_cons_nomatch hh] at h ⊢
    rw [ih (fun hm => h (List.mem_cons_of_mem _ hm))]
  | case6 c cs hne ih =>
    rw [linkPass_cons_ne cs hne] at h ⊢
    rw [ih (fun hm => h (List.mem_cons_of_mem _ hm))]

/-! ### Length lemmas: a pass never shortens the text when its inserted
codes are at least as long as the delimiters it consumes -/

theorem singlePass_length {d : Char} {pre post : List Char}
    (h2 : 2 ≤ pre.length + post.length) (cs : List Char) :
    cs.length ≤ (singlePass d pre post cs).length := by
  induction cs using singlePass.induct d pre post with
  | case1 => rw [singlePass_nil]
  | case2 cs body rest hh ih =>
    rw [singlePass_cons_match pre post hh]
    have hcs : cs = body ++ d :: rest := (takeUntil_eq hh).1
    rw [hcs]
    simp only [List.length_append, List.length_cons]
    omega
  | case3 cs hh ih =>
    rw [singlePass_cons_nomatch pre post hh]
    simp only [List.length_cons]
    omega
  | case4 c cs hne ih =>
    rw [singlePass_cons_ne pre post cs hne]
    simp only [List.length_cons]
    omega

theorem doublePass_length {d : Char} {pre post : List Char}
    (h4 : 4 ≤ pre.length + post.length) (cs : List Char) :
    cs.length ≤ (doublePass d pre post cs).length := by
  induction cs using doublePass.induct d pre post with
  | case1 => rw [doublePass_nil]
  | case2 c => rw [doublePass_one]
  | case3 c1 c2 cs hc body rest hh h2 ih =>
    rw [hc.1, hc.2]
    rw [doublePass_cons_match pre post hh]
    have hcs : cs = body ++ d :: d :: rest := (takeUntil_eq hh).1
    rw [hcs]
    simp only [List.length_append, List.length_cons]
    omega
  | case4 c1 c2 cs hc body a rest hh ha h2 ih =>
    rw [hc.1, hc.2]
    rw [hc.2] at ih
    rw [doublePass_cons_noclose pre post hh (by simp [ha])]
    simp only [List.length_cons] at ih ⊢
    omega
  | case5 c1 c2 cs hc body hh h2 ih =>
    rw [hc.1, hc.2]
    rw [hc.2] at ih
    rw [doublePass_cons_noclose pre post hh (by simp)]
    simp only [List.length_cons] at ih ⊢
    omega
  | case6 c1 c2 cs hc hh ih =>
    rw [hc.1, hc.2]
    rw [hc.2] at ih
    rw [doublePass_cons_nomatch pre post hh]
    simp only [List.length_cons] at ih ⊢
    omega
  | case7 c1 c2 cs hc ih =>
    rw [doublePass_cons₂_ne pre post cs hc]
    simp only [List.length_cons] at ih ⊢
    omega

/-! ### The self-containedness invariant `lastEscOK` and its preservation
by every replacement pass -/

theorem esc_mem_Reset : esc ∈ Reset := by decide

theorem lastEscOK_cons_ne {c : Char} (s : List Char) (h : c ≠ esc) :
    lastEscOK (c :: s) = lastEscOK s := by
  rw [lastEscOK, if_neg h]

theorem lastEscOK_of_no_esc {s : List Char} (h : esc ∉ s) : lastEscOK s = true := by
  induction s with
  | nil => rfl
  | cons c s ih =>
    have hc : c ≠ esc := fun hc => h (hc ▸ List.mem_cons_self c s)
    rw [lastEscOK_cons_ne s hc]
    exact ih (fun hm => h (List.mem_cons_of_mem _ hm))

theorem lastEscOK_tail {c : Char} {s : List Char} (h : lastEscOK (c :: s) = true) :
    lastEscOK s = true := by
  by_cases hc : c = esc
  · subst hc
    by_cases hm : esc ∈ s
    · rw [lastEscOK, if_pos rfl, if_pos hm] at h
      exact h
    · exact lastEscOK_of_no_esc hm
  · rw [lastEscOK_cons_ne s hc] at h
    exact h

theorem lastEscOK_suffix {s t : List Char} (hs : lastEscOK s = true) (h : t <:+ s) :
    lastEscOK t = true := by
  obtain ⟨u, rfl⟩ := h
  induction u with
  | nil => simpa using hs
  | cons c u ih => exact ih (lastEscOK_tail hs)

theorem lastEscOK_append_right {x y : List Char} (hx : lastEscOK x = true)
    (hy : esc ∉ y) : lastEscOK (x ++ y) = true := by
  induction x with
  | nil => exact lastEscOK_of_no_esc hy
  | cons c x ih =>
    rw [List.cons_append]
    by_cases hc : c = esc
    · subst hc
      rw [lastEscOK, if_pos rfl]
      by_cases hm : esc ∈ x
      · rw [if_pos (List.mem_append_left y hm)]
        rw [lastEscOK, if_pos rfl, if_pos hm] at hx
        exact ih hx
      · have hm2 : esc ∉ x ++ y := by
          simp only [List.mem_append, not_or]
          exact ⟨hm, hy⟩
        rw [if_neg hm2]
        rw [lastEscOK, if_pos rfl, if_neg hm] at hx
        have hpre : Reset <+: (esc :: x) := List.isPrefixOf_iff_prefix.mp hx
        have : Reset <+: (esc :: x) ++ y := hpre.trans (List.prefix_append _ y)
        simpa using List.isPrefixOf_iff_prefix.mpr this
    · rw [lastEscOK_cons_ne _ hc]
      rw [lastEscOK_cons_ne _ hc] at hx
      exact ih hx

theorem lastEscOK_append_left {y : List Char} (x : List Char) (hy : lastEscOK y = true)
    (hm : esc ∈ y) : lastEscOK (x ++ y) = true := by
  induction x with
  | nil => exact hy
  | cons c x ih =>
    rw [List.cons_append]
    by_cases hc : c = esc
    · rw [lastEscOK, if_pos hc, if_pos (List.mem_append_right x hm)]
      exact ih
    · rw [lastEscOK_cons_ne _ hc]
      exact ih

theorem lastEscOK_append_reset (x : List Char) : lastEscOK (x ++ Reset) = true := by
  induction x with
  | nil => decide
  | cons c x ih =>
    rw [List.cons_append]
    by_cases hc : c = esc
    · rw [lastEscOK, if_pos hc, if_pos (List.mem_append_right x esc_mem_Reset)]
      exact ih
    · rw [lastEscOK_cons_ne _ hc]
      exact ih

/-- The single step that handles a literal head character in a pass: if the
pass preserves `lastEscOK` on the tail, keeps escape characters, and is the
identity whenever its output is escape-free, then prepending the head
preserves `lastEscOK`. -/
theorem lastEscOK_cons_pass {c : Char} {cs out : List Char}
    (h : lastEscOK (c :: cs) = true)
    (hrec : lastEscOK cs = true → lastEscOK out = true)
    (hmem : esc ∈ cs → esc ∈ out)
    (hid : esc ∉ out → out = cs) :
    lastEscOK (c :: out) = true := by
  by_cases hc : c = esc
  · subst hc
    rw [lastEscOK, if_pos rfl]
    by_cases hmo : esc ∈ out
    · rw [if_pos hmo]
      exact hrec (lastEscOK_tail h)
    · rw [if_neg hmo]
      rw [hid hmo]
      by_cases hmc : esc ∈ cs
      · exact absurd (hmem hmc) hmo
      · rw [lastEscOK, if_pos rfl, if_neg hmc] at h
        exact h
  · rw [lastEscOK_cons_ne out hc]
    rw [lastEscOK_cons_ne cs hc] at h
    exact hrec h

theorem lastEscOK_singlePass {d : Char} (pre : List Char) {cs : List Char}
    (h : lastEscOK cs = true) :
    lastEscOK (singlePass d pre Reset cs) = true := by
  induction cs using singlePass.induct d pre Reset with
  | case1 => rw [singlePass_nil]; rfl
  | case2 cs body rest hh ih =>
    rw [singlePass_cons_match pre Reset hh]
    have hsuf : rest <:+ cs :=
      ⟨body ++ [d], by simpa using ((takeUntil_eq hh).1).symm⟩
    have hrest : lastEscOK rest = true := lastEscOK_suffix (lastEscOK_tail h) hsuf
    have hrec := ih hrest
    by_cases hm : esc ∈ singlePass d pre Reset rest
    · exact lastEscOK_append_left _ hrec hm
    · exact lastEscOK_append_right (lastEscOK_append_reset (pre ++ body)) hm
  | case3 cs hh ih =>
    rw [singlePass_cons_nomatch pre Reset hh]
    exact lastEscOK_cons_pass h ih
      (mem_singlePass_of_mem esc_mem_Reset)
      (singlePass_eq_of_not_mem esc_mem_Reset)
  | case4 c cs hne ih =>
    rw [singlePass_cons_ne pre Reset cs hne]
    exact lastEscOK_cons_pass h ih
      (mem_singlePass_of_mem esc_mem_Reset)
      (singlePass_eq_of_not_mem esc_mem_Reset)

theorem lastEscOK_doublePass {d : Char} (pre : List Char) {cs : List Char}
    (h : lastEscOK cs = true) :
    lastEscOK (doublePass d pre Reset cs) = true := by
  induction cs using doublePass.induct d pre Reset with
  | case1 => rw [doublePass_nil]; rfl
  | case2 c => rw [doublePass_one]; exact h
  | case3 c1 c2 cs hc body rest hh h2 ih =>
    rw [hc.1, hc.2] at h ⊢
    rw [doublePass_cons_match pre Reset hh]
    have hsuf : rest <:+ cs :=
      ⟨body ++ [d, d], by simpa using ((takeUntil_eq hh).1).symm⟩
    have hrest : lastEscOK rest = true :=
      lastEscOK_suffix (lastEscOK_tail (lastEscOK_tail h)) hsuf
    have hrec := ih hrest
    by_cases hm : esc ∈ doublePass d pre Reset rest
    · exact lastEscOK_append_left _ hrec hm
    · exact lastEscOK_append_right (lastEscOK_append_reset (pre ++ body)) hm
  | case4 c1 c2 cs hc body a rest hh ha h2 ih =>
    rw [hc.1, hc.2] at h ⊢
    rw [hc.2] at ih
    rw [doublePass_cons_noclose pre Reset hh (by simp [ha])]
    exact lastEscOK_cons_pass h ih
      (mem_doublePass_of_mem esc_mem_Reset)
      (doublePass_eq_of_not_mem esc_mem_Reset)
  | case5 c1 c2 cs hc body hh h2 ih =>
    rw [hc.1, hc.2] at h ⊢
    rw [hc.2] at ih
    rw [doublePass_cons_noclose pre Reset hh (by simp)]
    exact lastEscOK_cons_pass h ih
      (mem_doublePass_of_mem esc_mem_Reset)
      (doublePass_eq_of_not_mem esc_mem_Reset)
  | case6 c1 c2 cs hc hh ih =>
    rw [hc.1, hc.2] at h ⊢
    rw [hc.2] at ih
    rw [doublePass_cons_nomatch pre Reset hh]
    exact lastEscOK_cons_pass h ih
      (mem_doublePass_of_mem esc_mem_Reset)
      (doublePass_eq_of_not_mem esc_mem_Reset)
  | case7 c1 c2 cs hc ih =>
    rw [doublePass_cons₂_ne pre Reset cs hc]
    exact lastEscOK_cons_pass h ih
      (mem_doublePass_of_mem esc_mem_Reset)
      (doublePass_eq_of_not_mem esc_mem_Reset)

theorem lastEscOK_linkPass {cs : List Char} (h : lastEscOK cs = true) :
    lastEscOK (linkPass cs) = true := by
  induction cs using linkPass.induct with
  | case1 => rw [linkPass_nil]; rfl
  | case2 cs txt after1 h1 hhd url after2 h2 ih =>
    have hsplit := head_eq_paren hhd
    rw [hsplit] at h1
    rw [linkPass_cons_match h1 h2]
    have hsuf1 : after1.tail <:+ cs := by
      refine List.IsSuffix.trans ?_ ⟨txt ++ [']'], by simpa using ((takeUntil_eq h1).1).symm⟩
      exact ⟨['('], rfl⟩
    have hsuf2 : after2 <:+ after1.tail :=
      ⟨url ++ [')'], by simpa using ((takeUntil_eq h2).1).symm⟩
    have hrest : lastEscOK after2 = true :=
      lastEscOK_suffix (lastEscOK_tail h) (hsuf2.trans hsuf1)
    have hrec := ih hrest
    by_cases hm : esc ∈ linkPass after2
    · exact lastEscOK_append_left _ hrec hm
    · exact lastEscOK_append_right (lastEscOK_append_reset (Blue ++ Underline ++ txt)) hm
  | case3 cs txt after1 h1 hhd h2 ih =>
    have hsplit := head_eq_paren hhd
    rw [hsplit] at h1
    rw [linkPass_cons_nourl h1 h2]
    exact lastEscOK_cons_pass h ih
      (mem_linkPass_of_mem esc_mem_Reset)
      (linkPass_eq_of_not_mem esc_mem_Reset)
  | case4 cs txt after1 h1 hhd ih =>
    rw [linkPass_cons_noparen h1 hhd]
    exact lastEscOK_cons_pass h ih
      (mem_linkPass_of_mem esc_mem_Reset)
      (linkPass_eq_of_not_mem esc_mem_Reset)
  | case5 cs hh ih =>
    rw [linkPass_cons_nomatch hh]
    exact lastEscOK_cons_pass h ih
      (mem_linkPass_of_mem esc_mem_Reset)
      (linkPass_eq_of_not_mem esc_mem_Reset)
  | case6 c cs hne ih =>
    rw [linkPass_cons_ne cs hne]
    exact lastEscOK_cons_pass h ih
      (mem_linkPass_of_mem esc_mem_Reset)
      (linkPass_eq_of_not_mem esc_mem_Reset)

theorem lastEscOK_renderInlineFormatting {line : List Char}
    (h : lastEscOK line = true) :
    lastEscOK (renderInlineFormatting line) = true := by
  unfold renderInlineFormatting
  exact lastEscOK_linkPass (lastEscOK_singlePass _
    (lastEscOK_singlePass _ (lastEscOK_singlePass _
      (lastEscOK_doublePass _ (lastEscOK_doublePass _ h)))))

/-! ### Structure of `RenderMarkdown`: line splitting and rejoining -/

theorem splitNl_ne_nil (cs : List Char) : splitNl cs ≠ [] := by
  induction cs with
  | nil => simp [splitNl]
  | cons c cs ih =>
    rw [splitNl]
    by_cases hc : c = '\n'
    · simp [hc]
    · rw [if_neg hc]
      cases h : splitNl cs with
      | nil => simp
      | cons t ts => simp

theorem join_splitNl (cs : List Char) :
    ((splitNl cs).map (fun l => l ++ ['\n'])).flatten = cs ++ ['\n'] := by
  induction cs with
  | nil => rfl
  | cons c cs ih =>
    by_cases hc : c = '\n'
    · subst hc
      rw [splitNl, if_pos rfl]
      simp only [List.map_cons, List.flatten_cons, List.nil_append]
      rw [ih]
      rfl
    · rw [splitNl, if_neg hc]
      cases h : splitNl cs with
      | nil => exact absurd h (splitNl_ne_nil cs)
      | cons t ts =>
        rw [h] at ih
        simp only [List.map_cons, List.flatten_cons, List.cons_append] at ih ⊢
        rw [ih]

theorem foldl_render_eq_join (f : List Char → List Char) (ls : List (List Char))
    (acc : List Char) :
    ls.foldl (fun a l => a ++ f l ++ ['\n']) acc =
      acc ++ (ls.map (fun l => f l ++ ['\n'])).flatten := by
  induction ls generalizing acc with
  | nil => simp
  | cons t ts ih =>
    simp only [List.foldl_cons, List.map_cons, List.flatten_cons]
    rw [ih]
    simp [List.append_assoc]

theorem trimOneNl_concat (x : List Char) : trimOneNl (x ++ ['\n']) = x := by
  unfold trimOneNl
  rw [if_pos (by simp), List.dropLast_concat]

theorem join_map_concat_eq_intercalate (ls : List (List Char)) (h : ls ≠ []) :
    (ls.map (fun l => l ++ ['\n'])).flatten = List.intercalate ['\n'] ls ++ ['\n'] := by
  induction ls with
  | nil => cases h rfl
  | cons t ts ih =>
    cases ts with
    | nil => simp [List.intercalate]
    | cons t2 ts2 =>
      have ih2 := ih (by simp)
      simp only [List.map_cons, List.flatten_cons] at ih2 ⊢
      rw [ih2]
      simp only [List.intercalate, List.intersperse]
      simp [List.append_assoc]

theorem RenderMarkdown_eq_join (cs : List Char) :
    RenderMarkdown cs =
      trimOneNl (((splitNl cs).map (fun l => renderLine l ++ ['\n'])).flatten) := by
  unfold RenderMarkdown
  rw [foldl_render_eq_join renderLine]
  simp

theorem RenderMarkdown_intercalate (cs : List Char) :
    RenderMarkdown cs = List.intercalate ['\n'] ((splitNl cs).map renderLine) := by
  rw [RenderMarkdown_eq_join]
  have h1 : (splitNl cs).map renderLine ≠ [] := by
    simp [splitNl_ne_nil]
  have h2 : ((splitNl cs).map (fun l => renderLine l ++ ['\n'])) =
      (((splitNl cs).map renderLine).map (fun l => l ++ ['\n'])) := by
    simp [List.map_map]
  rw [h2, join_map_concat_eq_intercalate _ h1, trimOneNl_concat]

theorem intercalate_splitNl (cs : List Char) :
    List.intercalate ['\n'] (splitNl cs) = cs := by
  have h := join_splitNl cs
  rw [join_map_concat_eq_intercalate _ (splitNl_ne_nil cs)] at h
  exact List.append_cancel_right h

theorem mem_of_mem_splitNl {cs l : List Char} (hl : l ∈ splitNl cs) {c : Char}
    (hc : c ∈ l) : c ∈ cs := by
  induction cs generalizing l with
  | nil =>
    simp [splitNl] at hl
    subst hl
    cases hc
  | cons c0 cs ih =>
    rw [splitNl] at hl
    by_cases h0 : c0 = '\n'
    · rw [if_pos h0] at hl
      rcases List.mem_cons.mp hl with rfl | hl'
      · cases hc
      · exact List.mem_cons_of_mem _ (ih hl' hc)
    · rw [if_neg h0] at hl
      cases hsp : splitNl cs with
      | nil => exact absurd hsp (splitNl_ne_nil cs)
      | cons t ts =>
        rw [hsp] at hl
        rcases List.mem_cons.mp hl with rfl | hl'
        · rcases List.mem_cons.mp hc with rfl | hc'
          · exact List.mem_cons_self _ _
          · exact List.mem_cons_of_mem _ (ih (hsp ▸ List.mem_cons_self t ts) hc')
        · exact List.mem_cons_of_mem _ (ih (hsp ▸ List.mem_cons_of_mem t hl') hc)

theorem no_nl_of_mem_splitNl {cs l : List Char} (hl : l ∈ splitNl cs) : '\n' ∉ l := by
  induction cs generalizing l with
  | nil =>
    simp [splitNl] at hl
    subst hl
    simp
  | cons c0 cs ih =>
    rw [splitNl] at hl
    by_cases h0 : c0 = '\n'
    · rw [if_pos h0] at hl
      rcases List.mem_cons.mp hl with rfl | hl'
      · simp
      · exact ih hl'
    · rw [if_neg h0] at hl
      cases hsp : splitNl cs with
      | nil => exact absurd hsp (splitNl_ne_nil cs)
      | cons t ts =>
        rw [hsp] at hl
        rcases List.mem_cons.mp hl with rfl | hl'
        · intro hm
          rcases List.mem_cons.mp hm with hm0 | hm'
          · exact h0 hm0.symm
          · exact ih (hsp ▸ List.mem_cons_self t ts) hm'
        · exact ih (hsp ▸ List.mem_cons_of_mem t hl')

/-! ### Evaluation lemmas for `renderLine`'s branches -/

theorem not_isPrefixOf_head {a c : Char} (p t : List Char) (h : a ≠ c) :
    ¬ ((a :: p).isPrefixOf (c :: t) = true) := by
  intro hp
  simp [List.isPrefixOf] at hp
  exact h hp.1

theorem takeWhile_prepend {p : Char → Bool} {ds : List Char} (hd : ∀ c ∈ ds, p c)
    {x : Char} (hx : ¬ p x) (r : List Char) :
    (ds ++ x :: r).takeWhile p = ds := by
  induction ds with
  | nil => simp [List.takeWhile_cons_of_neg hx]
  | cons a ds ih =>
    rw [List.cons_append, List.takeWhile_cons_of_pos (hd a (List.mem_cons_self a ds))]
    rw [ih (fun c hc => hd c (List.mem_cons_of_mem _ hc))]

theorem takeWhile_all {p : Char → Bool} {l : List Char} (h : ∀ c ∈ l, p c) :
    l.takeWhile p = l := by
  induction l with
  | nil => rfl
  | cons a l ih =>
    rw [List.takeWhile_cons_of_pos (h a (List.mem_cons_self a l))]
    rw [ih (fun c hc => h c (List.mem_cons_of_mem _ hc))]

theorem numberedSplit_eval {ds rest : List Char} (hne : ds ≠ [])
    (hd : ∀ c ∈ ds, c.isDigit) (hnl : '\n' ∉ rest) :
    numberedSplit (ds ++ '.' :: ' ' :: rest) = some (ds ++ ['.', ' '], rest) := by
  have htw : (ds ++ '.' :: ' ' :: rest).takeWhile Char.isDigit = ds :=
    takeWhile_prepend hd (by decide) _
  have hdrop : (ds ++ '.' :: ' ' :: rest).drop ds.length = '.' :: ' ' :: rest :=
    List.drop_left ds _
  have hr : rest.takeWhile (fun c => c ≠ '\n') = rest := by
    apply takeWhile_all
    intro c hc
    simp
    intro hcc
    exact hnl (hcc ▸ hc)
  unfold numberedSplit
  simp only [htw, hdrop, if_neg hne, hr]

theorem renderInlineFormatting_id {line : List Char}
    (h1 : '*' ∉ line) (h2 : '_' ∉ line) (h3 : backtick ∉ line)
    (h4 : '[' ∉ line) :
    renderInlineFormatting line = line := by
  unfold renderInlineFormatting
  rw [doublePass_id _ _ h1, doublePass_id _ _ h2, singlePass_id _ _ h1,
      singlePass_id _ _ h2, singlePass_id _ _ h3, linkPass_id_no_open h4]

theorem toList_hash3 : "### ".toList = '#' :: '#' :: '#' :: [' '] := rfl

theorem toList_hash2 : "## ".toList = '#' :: '#' :: [' '] := rfl

theorem toList_hash1 : "# ".toList = '#' :: [' '] := rfl

theorem toList_fence : "```".toList = backtick :: backtick :: [backtick] := rfl

theorem toList_dash : "- ".toList = '-' :: [' '] := rfl

theorem toList_star : "* ".toList = '*' :: [' '] := rfl

theorem mem_of_isPrefixOf_head {a : Char} {p s : List Char}
    (h : (a :: p).isPrefixOf s = true) : a ∈ s := by
  obtain ⟨t, rfl⟩ := List.isPrefixOf_iff_prefix.mp h
  exact List.mem_append_left _ (List.mem_cons_self _ _)

/-- A line starting with `"- "` or `"* "` takes the bullet branch: the
prefix becomes `Green "• " Reset` and the double `TrimPrefix` result is
appended with NO inline-span transformation. -/
theorem renderLine_bullet {line : List Char}
    (h : ("- ".toList).isPrefixOf line ∨ ("* ".toList).isPrefixOf line) :
    renderLine line =
      Green ++ "• ".toList ++ Reset ++
        trimPref ("* ".toList) (trimPref ("- ".toList) line) := by
  obtain ⟨c0, t, rfl, hc0⟩ : ∃ c0 t, line = c0 :: t ∧ (c0 = '-' ∨ c0 = '*') := by
    rcases h with h | h
    · rw [toList_dash] at h
      obtain ⟨u, hu⟩ := List.isPrefixOf_iff_prefix.mp h
      exact ⟨'-', ' ' :: u, by simpa using hu.symm, Or.inl rfl⟩
    · rw [toList_star] at h
      obtain ⟨u, hu⟩ := List.isPrefixOf_iff_prefix.mp h
      exact ⟨'*', ' ' :: u, by simpa using hu.symm, Or.inr rfl⟩
  have hns : ('#' : Char) ≠ c0 ∧ backtick ≠ c0 := by
    rcases hc0 with rfl | rfl
    · exact ⟨by decide, by decide⟩
    · exact ⟨by decide, by decide⟩
  rw [renderLine]
  rw [if_neg (by rw [toList_hash3]; exact not_isPrefixOf_head _ _ hns.1)]
  rw [if_neg (by rw [toList_hash2]; exact not_isPrefixOf_head _ _ hns.1)]
  rw [if_neg (by rw [toList_hash1]; exact not_isPrefixOf_head _ _ hns.1)]
  rw [if_neg (by rw [toList_fence]; exact not_isPrefixOf_head _ _ hns.2)]
  rw [if_pos h]

/-- A line of the form `digits ++ ". " ++ rest` takes the numbered-list
branch: the numeral prefix is wrapped in `Yellow…Reset` and `rest` is
appended with NO inline-span transformation. -/
theorem renderLine_numbered {ds rest : List Char} (hne : ds ≠ [])
    (hd : ∀ c ∈ ds, c.isDigit) (hnl : '\n' ∉ rest) :
    renderLine (ds ++ '.' :: ' ' :: rest) =
      Yellow ++ (ds ++ ['.', ' ']) ++ Reset ++ rest := by
  obtain ⟨d0, ds', rfl⟩ : ∃ d0 ds', ds = d0 :: ds' := by
    cases ds with
    | nil => cases hne rfl
    | cons a b => exact ⟨a, b, rfl⟩
  have hd0 : d0.isDigit = true := hd d0 (List.mem_cons_self _ _)
  have hh : ('#' : Char) ≠ d0 := by rintro rfl; exact absurd hd0 (by decide)
  have hb : backtick ≠ d0 := by rintro rfl; exact absurd hd0 (by decide)
  have hda : ('-' : Char) ≠ d0 := by rintro rfl; exact absurd hd0 (by decide)
  have hst : ('*' : Char) ≠ d0 := by rintro rfl; exact absurd hd0 (by decide)
  have heval := numberedSplit_eval hne hd hnl
  rw [List.cons_append] at heval ⊢
  rw [renderLine]
  rw [if_neg (by rw [toList_hash3]; exact not_isPrefixOf_head _ _ hh)]
  rw [if_neg (by rw [toList_hash2]; exact not_isPrefixOf_head _ _ hh)]
  rw [if_neg (by rw [toList_hash1]; exact not_isPrefixOf_head _ _ hh)]
  rw [if_neg (by rw [toList_fence]; exact not_isPrefixOf_head _ _ hb)]
  rw [if_neg (not_or.mpr
    ⟨by rw [toList_dash]; exact not_isPrefixOf_head _ _ hda,
     by rw [toList_star]; exact not_isPrefixOf_head _ _ hst⟩)]
  rw [heval]

/-- A line containing none of the block or inline trigger characters, and
not matching the numbered-list pattern, renders to itself. -/
theorem renderLine_id {line : List Char}
    (hstar : '*' ∉ line) (hund : '_' ∉ line) (hbt : backtick ∉ line)
    (hhash : '#' ∉ line) (hdash : '-' ∉ line) (hbr : '[' ∉ line)
    (hnum : numberedSplit line = none) :
    renderLine line = line := by
  have p1 : ¬(("### ".toList).isPrefixOf line = true) := by
    rw [toList_hash3]
    intro hp
    exact hhash (mem_of_isPrefixOf_head hp)
  have p2 : ¬(("## ".toList).isPrefixOf line = true) := by
    rw [toList_hash2]
    intro hp
    exact hhash (mem_of_isPrefixOf_head hp)
  have p3 : ¬(("# ".toList).isPrefixOf line = true) := by
    rw [toList_hash1]
    intro hp
    exact hhash (mem_of_isPrefixOf_head hp)
  have p4 : ¬(("```".toList).isPrefixOf line = true) := by
    rw [toList_fence]
    intro hp
    exact hbt (mem_of_isPrefixOf_head hp)
  have p5 : ¬(("- ".toList).isPrefixOf line = true) := by
    rw [toList_dash]
    intro hp
    exact hdash (mem_of_isPrefixOf_head hp)
  have p6 : ¬(("* ".toList).isPrefixOf line = true) := by
    rw [toList_star]
    intro hp
    exact hstar (mem_of_isPrefixOf_head hp)
  rw [renderLine, if_neg p1, if_neg p2, if_neg p3, if_neg p4,
      if_neg (not_or.mpr ⟨p5, p6⟩), hnum]
  exact renderInlineFormatting_id hstar hund hbt hbr

/-! ### Inversion lemmas for `numberedSplit` -/

theorem numberedSplit_some {line p r : List Char} (h : numberedSplit line = some (p, r))
    (hnl : '\n' ∉ line) :
    line = line.takeWhile Char.isDigit ++ '.' :: ' ' :: r ∧
      p = line.takeWhile Char.isDigit ++ ['.', ' '] := by
  unfold numberedSplit at h
  split at h
  next r1 heq =>
    by_cases hne : line.takeWhile Char.isDigit = []
    · rw [if_pos hne] at h
      cases h
    · rw [if_neg hne] at h
      obtain ⟨rfl, hr⟩ :
          line.takeWhile Char.isDigit ++ ['.', ' '] = p ∧
            r1.takeWhile (fun c => c ≠ '\n') = r := by
        simpa using h
      have hdecomp : line = line.takeWhile Char.isDigit ++ '.' :: ' ' :: r1 := by
        obtain ⟨t, ht⟩ := List.takeWhile_prefix (p := Char.isDigit) (l := line)
        set w := line.takeWhile Char.isDigit with hw
        have hdrop : line.drop w.length = t := by
          rw [← ht]
          exact List.drop_left w t
        rw [hdrop] at heq
        rw [← ht, heq]
      have hr1 : '\n' ∉ r1 := by
        intro hm
        apply hnl
        rw [hdecomp]
        exact List.mem_append_right _ (List.mem_cons_of_mem _ (List.mem_cons_of_mem _ hm))
      have htw : r1.takeWhile (fun c => c ≠ '\n') = r1 := by
        apply takeWhile_all
        intro c hc
        simp
        intro hcc
        exact hr1 (hcc ▸ hc)
      rw [htw] at hr
      subst hr
      exact ⟨hdecomp, rfl⟩
  next heq => cases h

theorem numberedSplit_mem {line p r : List Char} (h : numberedSplit line = some (p, r)) :
    ∀ c ∈ r, c ∈ line := by
  unfold numberedSplit at h
  split at h
  next r1 heq =>
    by_cases hne : line.takeWhile Char.isDigit = []
    · rw [if_pos hne] at h
      cases h
    · rw [if_neg hne] at h
      obtain ⟨hp, hr⟩ :
          line.takeWhile Char.isDigit ++ ['.', ' '] = p ∧
            r1.takeWhile (fun c => c ≠ '\n') = r := by
        simpa using h
      intro c hc
      rw [← hr] at hc
      have hc1 : c ∈ r1 := (List.takeWhile_prefix _).subset hc
      have hc2 : c ∈ '.' :: ' ' :: r1 :=
        List.mem_cons_of_mem _ (List.mem_cons_of_mem _ hc1)
      rw [← heq] at hc2
      exact List.mem_of_mem_drop hc2
  next heq => cases h

/-! ### Length lower bounds for the full renderer -/

theorem renderInlineFormatting_length {l : List Char} (hbr : ']' ∉ l) :
    l.length ≤ (renderInlineFormatting l).length := by
  unfold renderInlineFormatting
  have nb : (']' : Char) ∉ Bold := by decide
  have nr : (']' : Char) ∉ Reset := by decide
  have ni : (']' : Char) ∉ Italic := by decide
  have nc : (']' : Char) ∉ Cyan := by decide
  have h1 : (']' : Char) ∉ doublePass '*' Bold Reset l := by
    intro hm
    rcases mem_doublePass hm with h | h | h
    · exact nb h
    · exact nr h
    · exact hbr h
  have h2 : (']' : Char) ∉ doublePass '_' Bold Reset (doublePass '*' Bold Reset l) := by
    intro hm
    rcases mem_doublePass hm with h | h | h
    · exact nb h
    · exact nr h
    · exact h1 h
  have h3 : (']' : Char) ∉ singlePass '*' Italic Reset
      (doublePass '_' Bold Reset (doublePass '*' Bold Reset l)) := by
    intro hm
    rcases mem_singlePass hm with h | h | h
    · exact ni h
    · exact nr h
    · exact h2 h
  have h4 : (']' : Char) ∉ singlePass '_' Italic Reset (singlePass '*' Italic Reset
      (doublePass '_' Bold Reset (doublePass '*' Bold Reset l))) := by
    intro hm
    rcases mem_singlePass hm with h | h | h
    · exact ni h
    · exact nr h
    · exact h3 h
  have h5 : (']' : Char) ∉ singlePass backtick Cyan Reset
      (singlePass '_' Italic Reset (singlePass '*' Italic Reset
        (doublePass '_' Bold Reset (doublePass '*' Bold Reset l)))) := by
    intro hm
    rcases mem_singlePass hm with h | h | h
    · exact nc h
    · exact nr h
    · exact h4 h
  rw [linkPass_id_no_close h5]
  calc l.length
      ≤ (doublePass '*' Bold Reset l).length := doublePass_length (by decide) l
    _ ≤ (doublePass '_' Bold Reset (doublePass '*' Bold Reset l)).length :=
        doublePass_length (by decide) _
    _ ≤ (singlePass '*' Italic Reset (doublePass '_' Bold Reset
          (doublePass '*' Bold Reset l))).length := singlePass_length (by decide) _
    _ ≤ (singlePass '_' Italic Reset (singlePass '*' Italic Reset
          (doublePass '_' Bold Reset (doublePass '*' Bold Reset l)))).length :=
        singlePass_length (by decide) _
    _ ≤ (singlePass backtick Cyan Reset (singlePass '_' Italic Reset
          (singlePass '*' Italic Reset (doublePass '_' Bold Reset
            (doublePass '*' Bold Reset l))))).length := singlePass_length (by decide) _

theorem trimPref_length {p s : List Char} :
    s.length - p.length ≤ (trimPref p s).length := by
  unfold trimPref
  split
  · simp
  · omega

theorem renderLine_length {l : List Char} (hbr : ']' ∉ l) (hnl : '\n' ∉ l) :
    l.length ≤ (renderLine l).length := by
  rw [renderLine]
  by_cases p1 : ("### ".toList).isPrefixOf l = true
  · rw [if_pos p1]
    have ht := @trimPref_length ("### ".toList) l
    have hl4 : ("### ".toList).length = 4 := rfl
    rw [hl4] at ht
    simp only [List.length_append, Yellow, Bold, Reset, List.length_cons,
      List.length_nil]
    omega
  · rw [if_neg p1]
    by_cases p2 : ("## ".toList).isPrefixOf l = true
    · rw [if_pos p2]
      have ht := @trimPref_length ("## ".toList) l
      have hl3 : ("## ".toList).length = 3 := rfl
      rw [hl3] at ht
      simp only [List.length_append, Blue, Bold, Reset, List.length_cons,
        List.length_nil]
      omega
    · rw [if_neg p2]
      by_cases p3 : ("# ".toList).isPrefixOf l = true
      · rw [if_pos p3]
        have ht := @trimPref_length ("# ".toList) l
        have hl2 : ("# ".toList).length = 2 := rfl
        rw [hl2] at ht
        simp only [List.length_append, Magenta, Bold, Reset, List.length_cons,
          List.length_nil]
        omega
      · rw [if_neg p3]
        by_cases p4 : ("```".toList).isPrefixOf l = true
        · rw [if_pos p4]
          simp only [List.length_append, Cyan, Reset, List.length_cons,
            List.length_nil]
          omega
        · rw [if_neg p4]
          by_cases p5 : ("- ".toList).isPrefixOf l = true ∨ ("* ".toList).isPrefixOf l = true
          · rw [if_pos p5]
            have ht1 := @trimPref_length ("- ".toList) l
            have ht2 := @trimPref_length ("* ".toList) (trimPref ("- ".toList) l)
            have hd2 : ("- ".toList).length = 2 := rfl
            have hs2 : ("* ".toList).length = 2 := rfl
            rw [hd2] at ht1
            rw [hs2] at ht2
            have hb2 : ("• ".toList).length = 2 := rfl
            simp only [List.length_append, Green, Reset, List.length_cons,
              List.length_nil, hb2]
            omega
          · rw [if_neg p5]
            cases hnum : numberedSplit l with
            | some pr =>
              obtain ⟨p, r⟩ := pr
              obtain ⟨hdecomp, hp⟩ := numberedSplit_some hnum hnl
              rw [hdecomp, hp]
              simp only [List.length_append, Yellow, Reset, List.length_cons,
                List.length_nil]
              omega
            | none =>
              exact renderInlineFormatting_length hbr

theorem intercalate_cons₂ (s x y : List Char) (zs : List (List Char)) :
    List.intercalate s (x :: y :: zs) = x ++ s ++ List.intercalate s (y :: zs) := by
  simp [List.intercalate, List.intersperse]

theorem intercalate_map_length_le (s : List Char) (f : List Char → List Char)
    (ls : List (List Char)) (h : ∀ l ∈ ls, l.length ≤ (f l).length) :
    (List.intercalate s ls).length ≤ (List.intercalate s (ls.map f)).length := by
  induction ls with
  | nil => simp
  | cons t ts ih =>
    cases ts with
    | nil =>
      simp only [List.map_cons, List.map_nil, List.intercalate]
      simp
      exact h t (List.mem_cons_self _ _)
    | cons t2 ts2 =>
      rw [intercalate_cons₂ s t t2 ts2]
      rw [List.map_cons, List.map_cons, intercalate_cons₂ s (f t) (f t2) (List.map f ts2)]
      have ih2 := ih (fun l hl => h l (List.mem_cons_of_mem _ hl))
      rw [List.map_cons] at ih2
      simp only [List.length_append]
      have ht := h t (List.mem_cons_self _ _)
      omega

/-! ### Self-containedness of every rendered line -/

theorem mem_trimPref {p s : List Char} {c : Char} (h : c ∈ trimPref p s) : c ∈ s := by
  unfold trimPref at h
  split at h
  · exact List.mem_of_mem_drop h
  · exact h

theorem lastEscOK_renderLine {l : List Char} (h : esc ∉ l) :
    lastEscOK (renderLine l) = true := by
  rw [renderLine]
  by_cases p1 : ("### ".toList).isPrefixOf l = true
  · rw [if_pos p1]
    exact lastEscOK_append_reset _
  · rw [if_neg p1]
    by_cases p2 : ("## ".toList).isPrefixOf l = true
    · rw [if_pos p2]
      exact lastEscOK_append_reset _
    · rw [if_neg p2]
      by_cases p3 : ("# ".toList).isPrefixOf l = true
      · rw [if_pos p3]
        exact lastEscOK_append_reset _
      · rw [if_neg p3]
        by_cases p4 : ("```".toList).isPrefixOf l = true
        · rw [if_pos p4]
          exact lastEscOK_append_reset _
        · rw [if_neg p4]
          by_cases p5 : ("- ".toList).isPrefixOf l = true ∨ ("* ".toList).isPrefixOf l = true
          · rw [if_pos p5]
            apply lastEscOK_append_right (lastEscOK_append_reset _)
            intro hm
            exact h (mem_trimPref (mem_trimPref hm))
          · rw [if_neg p5]
            cases hnum : numberedSplit l with
            | some pr =>
              obtain ⟨p, r⟩ := pr
              apply lastEscOK_append_right (lastEscOK_append_reset _)
              intro hm
              exact h (numberedSplit_mem hnum esc hm)
            | none =>
              exact lastEscOK_renderInlineFormatting (lastEscOK_of_no_esc h)

/-! ### Concrete evaluations shared by the claim theorems -/

theorem eval_nested : RenderMarkdown ("**a *b* c**".toList) =
    Italic ++ Reset ++ "a ".toList ++ Italic ++ "b".toList ++ Reset ++ " c".toList ++
      Italic ++ Reset := by
  simp [RenderMarkdown, splitNl, renderLine, trimOneNl, numberedSplit, trimPref,
        List.isPrefixOf, renderInlineFormatting, singlePass, doublePass, linkPass,
        takeUntil, backtick, Bold, Italic, Reset, Cyan, Blue, Underline, Green, Yellow,
        Magenta, esc, String.toList]

theorem eval_doublePass_nested :
    doublePass '*' Bold Reset ("**a *b* c**".toList) = "**a *b* c**".toList := by
  simp [doublePass, takeUntil, Bold, Reset, String.toList]

theorem eval_bullet_bold : renderLine ("- **a**".toList) =
    Green ++ "• ".toList ++ Reset ++ "**a**".toList := by
  simp [renderLine, trimPref, List.isPrefixOf, numberedSplit, Green, Reset,
        String.toList]

theorem eval_inline_bold_a : renderInlineFormatting ("**a**".toList) =
    Bold ++ "a".toList ++ Reset := by
  simp [renderInlineFormatting, singlePass, doublePass, linkPass, takeUntil, backtick,
        Bold, Italic, Reset, Cyan, Blue, Underline, String.toList]

theorem eval_codespan : renderInlineFormatting ("**a`b**`c`".toList) =
    Bold ++ "a".toList ++ Cyan ++ "b".toList ++ Reset ++ Reset ++ "c`".toList := by
  simp [renderInlineFormatting, singlePass, doublePass, linkPass, takeUntil, backtick,
        Bold, Italic, Reset, Cyan, Blue, Underline, String.toList]

theorem eval_stars4 : RenderMarkdown ("****".toList) = Bold ++ Reset := by
  simp [RenderMarkdown, splitNl, renderLine, trimOneNl, numberedSplit, trimPref,
        List.isPrefixOf, renderInlineFormatting, singlePass, doublePass, linkPass,
        takeUntil, backtick, Bold, Italic, Reset, Cyan, Blue, Underline, Green, Yellow,
        Magenta, esc, String.toList]

theorem eval_stars2 : RenderMarkdown ("**".toList) = Italic ++ Reset := by
  simp [RenderMarkdown, splitNl, renderLine, trimOneNl, numberedSplit, trimPref,
        List.isPrefixOf, renderInlineFormatting, singlePass, doublePass, linkPass,
        takeUntil, backtick, Bold, Italic, Reset, Cyan, Blue, Underline, Green, Yellow,
        Magenta, esc, String.toList]

theorem eval_link_long : RenderMarkdown ("[ab](01234567890123456789)".toList) =
    Blue ++ Underline ++ "ab".toList ++ Reset := by
  simp [RenderMarkdown, splitNl, renderLine, trimOneNl, numberedSplit, trimPref,
        List.isPrefixOf, renderInlineFormatting, singlePass, doublePass, linkPass,
        takeUntil, backtick, Bold, Italic, Reset, Cyan, Blue, Underline, Green, Yellow,
        Magenta, esc, String.toList]

theorem eval_oops : RenderMarkdown ("*oops".toList) = "*oops".toList := by
  simp [RenderMarkdown, splitNl, renderLine, trimOneNl, numberedSplit, trimPref,
        List.isPrefixOf, renderInlineFormatting, singlePass, doublePass, linkPass,
        takeUntil, backtick, Bold, Italic, Reset, Cyan, Blue, Underline, Green, Yellow,
        Magenta, esc, String.toList]

/-! ### Claim theorems -/

/-- C1 counterexample: rendering `"**a *b* c**"` does NOT yield
`Bold + "a " + Italic + "b" + Reset + " c" + Reset`; the bold pass's
capture class excludes `*`, so the bold pattern cannot span the inner
single-asterisk pair and never matches this line. -/
theorem c1_counterexample : RenderMarkdown ("**a *b* c**".toList) ≠
    Bold ++ "a ".toList ++ Italic ++ "b".toList ++ Reset ++ " c".toList ++ Reset := by
  rw [eval_nested]
  decide

/-- C1 (amended): rendering `"**a *b* c**"` yields
`Italic + Reset + "a " + Italic + "b" + Reset + " c" + Italic + Reset`:
the bold pass is a no-op on this line (its capture class excludes `*`, so
`**…**` cannot close across the inner asterisks), and the later italic
pass then matches each leading/trailing `**` as an empty italic span and
`*b*` as an italic span. -/
theorem c1_amended : RenderMarkdown ("**a *b* c**".toList) =
    Italic ++ Reset ++ "a ".toList ++ Italic ++ "b".toList ++ Reset ++ " c".toList ++
      Italic ++ Reset ∧
    doublePass '*' Bold Reset ("**a *b* c**".toList) = "**a *b* c**".toList :=
  ⟨eval_nested, eval_doublePass_nested⟩

/-- C2 counterexample: the bullet line `"- **a**"` is NOT rendered with the
inline-span transformation applied to its remaining text; the bold markers
stay literal. -/
theorem c2_counterexample : renderLine ("- **a**".toList) ≠
    Green ++ "• ".toList ++ Reset ++ renderInlineFormatting ("**a**".toList) := by
  rw [eval_bullet_bold, eval_inline_bold_a]
  decide

/-- C2 (amended): for every bullet line the classifier emits
`Green + "• " + Reset` followed by the remaining text LITERALLY (after
`TrimPrefix "- "` and then `TrimPrefix "* "`), and for every numbered-list
line it emits `Yellow + prefix + Reset` followed by the remainder
LITERALLY; neither branch applies the inline-span transformation. -/
theorem c2_amended :
    (∀ line : List Char,
      (("- ".toList).isPrefixOf line ∨ ("* ".toList).isPrefixOf line) →
        renderLine line =
          Green ++ "• ".toList ++ Reset ++
            trimPref ("* ".toList) (trimPref ("- ".toList) line)) ∧
    (∀ ds rest : List Char, ds ≠ [] → (∀ c ∈ ds, c.isDigit) → '\n' ∉ rest →
      renderLine (ds ++ '.' :: ' ' :: rest) =
        Yellow ++ (ds ++ ['.', ' ']) ++ Reset ++ rest) :=
  ⟨fun _ h => renderLine_bullet h,
   fun _ _ h1 h2 h3 => renderLine_numbered h1 h2 h3⟩

theorem c2_witness :
    renderLine ("- b".toList) = Green ++ "• ".toList ++ Reset ++ "b".toList ∧
    renderLine ("1. b".toList) = Yellow ++ "1. ".toList ++ Reset ++ "b".toList := by
  constructor
  · have h := c2_amended.1 ("- b".toList) (Or.inl (by decide))
    rw [h]
    decide
  · have h := c2_amended.2 ['1'] "b".toList (by decide) (by decide) (by decide)
    have hsh : "1. b".toList = ['1'] ++ '.' :: ' ' :: "b".toList := rfl
    rw [hsh, h]
    decide

/-- C3 counterexample: escape codes inserted by an earlier step are NOT
inert for later steps.  On `"**a`b**`c`"` the bold pass produces
`Bold+"a`b"+Reset+"`c`"`; if later patterns excluded the escape character
the backtick pair spanning the bold span's interior could not match and the
output would keep those backticks literal — it does not. -/
theorem c3_counterexample : renderInlineFormatting ("**a`b**`c`".toList) ≠
    Bold ++ "a`b".toList ++ Reset ++ "`c`".toList := by
  rw [eval_codespan]
  decide

/-- C3 (amended): later patterns exclude only their own delimiter and the
newline, not the escape character, so a later step with a different
delimiter CAN match text lying inside a span already replaced by an
earlier step.  On `"**a`b**`c`"` the inline-code pass captures
`"b" ++ Reset` — text inside the bold span together with the bold span's
closing Reset — producing `Bold+"a"+Cyan+"b"+Reset+Reset+"c`"`. -/
theorem c3_amended : renderInlineFormatting ("**a`b**`c`".toList) =
    Bold ++ "a".toList ++ Cyan ++ "b".toList ++ Reset ++ Reset ++ "c`".toList :=
  eval_codespan

/-- C4 counterexample: the rendered output can be SHORTER than the input;
the link rule drops the URL, so a 26-character link input renders to 15
characters. -/
theorem c4_counterexample :
    (RenderMarkdown ("[ab](01234567890123456789)".toList)).length <
      ("[ab](01234567890123456789)".toList).length := by
  rw [eval_link_long]
  decide

/-- C4 (amended): for every input that contains no `']'` character the
link rule can never fire (it needs a literal `]`, and no pass inserts
one), and every other transformation inserts at least as many characters
as it consumes, so the rendered output is at least as long as the input. -/
theorem c4_amended : ∀ cs : List Char, ']' ∉ cs →
    cs.length ≤ (RenderMarkdown cs).length := by
  intro cs hbr
  rw [RenderMarkdown_intercalate]
  conv_lhs => rw [← intercalate_splitNl cs]
  apply intercalate_map_length_le
  intro l hl
  exact renderLine_length (fun hm => hbr (mem_of_mem_splitNl hl hm))
    (no_nl_of_mem_splitNl hl)

theorem c4_witness :
    ("**hi**".toList).length ≤ (RenderMarkdown ("**hi**".toList)).length :=
  c4_amended _ (by decide)

/-- C5 counterexample: a delimiter pair enclosing an empty run IS a match:
`"****"` does not stay literal. -/
theorem c5_counterexample : RenderMarkdown ("****".toList) ≠ "****".toList := by
  rw [eval_stars4]
  decide

/-- C5 (amended): the capture classes use zero-or-more repetition, so a
delimiter pair enclosing an empty run is replaced as an empty span:
`"****"` renders to `Bold + Reset`, and `"**"` — unmatched by the bold
pattern — is consumed by the italic pass as an empty italic span,
rendering to `Italic + Reset`. -/
theorem c5_amended : RenderMarkdown ("****".toList) = Bold ++ Reset ∧
    RenderMarkdown ("**".toList) = Italic ++ Reset :=
  ⟨eval_stars4, eval_stars2⟩

/-- C6: the renderer is the identity on input free of the Markdown
metacharacters `* _ ` backtick `# - [ ] ( )` whose lines have no
digits-period-space prefix. -/
theorem c6_identity : ∀ cs : List Char,
    (∀ c ∈ cs, c ∉ ['*', '_', backtick, '#', '-', '[', ']', '(', ')']) →
    (∀ l ∈ splitNl cs, numberedSplit l = none) →
    RenderMarkdown cs = cs := by
  intro cs hmeta hnum
  rw [RenderMarkdown_intercalate]
  have hmap : (splitNl cs).map renderLine = (splitNl cs).map id := by
    apply List.map_congr_left
    intro l hl
    have hchar : ∀ x, x ∈ ['*', '_', backtick, '#', '-', '[', ']', '(', ')'] →
        x ∉ l := by
      intro x hx hxl
      exact hmeta x (mem_of_mem_splitNl hl hxl) hx
    exact renderLine_id (hchar '*' (by decide)) (hchar '_' (by decide))
      (hchar backtick (by decide)) (hchar '#' (by decide)) (hchar '-' (by decide))
      (hchar '[' (by decide)) (hnum l hl)
  rw [hmap, List.map_id, intercalate_splitNl]

theorem c6_witness : RenderMarkdown ("hello world".toList) = "hello world".toList :=
  c6_identity _ (by decide) (by decide)

/-- C7: `RenderMarkdown` splits the input on newlines, renders each line
independently, rejoins the rendered lines with newlines (appending one
newline per line and stripping the single trailing newline the join
introduced — equivalently, intercalating newlines). -/
theorem c7_line_independent : ∀ cs : List Char,
    RenderMarkdown cs =
      trimOneNl (((splitNl cs).map (fun l => renderLine l ++ ['\n'])).flatten) ∧
    RenderMarkdown cs = List.intercalate ['\n'] ((splitNl cs).map renderLine) :=
  fun cs => ⟨RenderMarkdown_eq_join cs, RenderMarkdown_intercalate cs⟩

/-- C8: the renderer never fails; an unterminated delimiter is left as a
literal character with no escape codes inserted.  A lone leading `*`
followed by delimiter-free text is returned unchanged by the inline
transformer, and in particular `render("*oops") = "*oops"`. -/
theorem c8_never_fails :
    (∀ rest : List Char, '*' ∉ rest → '_' ∉ rest → backtick ∉ rest → '[' ∉ rest →
      renderInlineFormatting ('*' :: rest) = '*' :: rest) ∧
    RenderMarkdown ("*oops".toList) = "*oops".toList := by
  constructor
  · intro rest h1 h2 h3 h4
    have h2' : '_' ∉ '*' :: rest := by
      intro hm
      rcases List.mem_cons.mp hm with h | h
      · exact absurd h (by decide)
      · exact h2 h
    have h3' : backtick ∉ '*' :: rest := by
      intro hm
      rcases List.mem_cons.mp hm with h | h
      · exact absurd h (by decide)
      · exact h3 h
    have h4' : '[' ∉ '*' :: rest := by
      intro hm
      rcases List.mem_cons.mp hm with h | h
      · exact absurd h (by decide)
      · exact h4 h
    unfold renderInlineFormatting
    have hd : doublePass '*' Bold Reset ('*' :: rest) = '*' :: rest := by
      cases rest with
      | nil => exact doublePass_one '*' '*' Bold Reset
      | cons c2 t =>
        have hc2 : ¬('*' = '*' ∧ c2 = '*') := by
          rintro ⟨_, h⟩
          exact h1 (h ▸ List.mem_cons_self c2 t)
        rw [doublePass_cons₂_ne Bold Reset t hc2]
        rw [doublePass_id Bold Reset h1]
    rw [hd]
    rw [doublePass_id Bold Reset h2']
    have hs : singlePass '*' Italic Reset ('*' :: rest) = '*' :: rest := by
      rw [singlePass_cons_nomatch Italic Reset (takeUntil_none_of_not_mem h1)]
      rw [singlePass_id Italic Reset h1]
    rw [hs]
    rw [singlePass_id Italic Reset h2', singlePass_id Cyan Reset h3',
        linkPass_id_no_open h4']
  · exact eval_oops

theorem c8_witness :
    renderInlineFormatting ('*' :: "oops".toList) = '*' :: "oops".toList :=
  c8_never_fails.1 ("oops".toList) (by decide) (by decide) (by decide) (by decide)

/-- C9: for escape-free input, every rendered line is self-contained: the
last escape code in the rendered line (when any exists) is a `Reset`, so
every inserted non-Reset style code is followed by a `Reset` on the same
line and no style code is left open across a line boundary. -/
theorem c9_self_contained : ∀ cs : List Char, esc ∉ cs →
    ∀ l ∈ splitNl cs, lastEscOK (renderLine l) = true := by
  intro cs h l hl
  exact lastEscOK_renderLine (fun hm => h (mem_of_mem_splitNl hl hm))

theorem c9_witness : lastEscOK (renderLine ("**hi** `x`".toList)) = true :=
  c9_self_contained ("**hi** `x`".toList) (by decide) _ (by decide)

/-- C10: a line of the form `"- * " ++ rest` has BOTH the `"- "` and the
`"* "` prefixes stripped by the bullet branch's double `TrimPrefix`, so
the literal `"* "` after the dash marker is silently dropped: the line
renders to `Green + "• " + Reset + rest`. -/
theorem c10_bullet_star_strip : ∀ rest : List Char,
    renderLine ("- * ".toList ++ rest) = Green ++ "• ".toList ++ Reset ++ rest := by
  intro rest
  have hsh : "- * ".toList ++ rest = '-' :: ' ' :: '*' :: ' ' :: rest := rfl
  rw [hsh]
  rw [renderLine_bullet (Or.inl (by simp [toList_dash, List.isPrefixOf]))]
  have hin : trimPref ("- ".toList) ('-' :: ' ' :: '*' :: ' ' :: rest) =
      '*' :: ' ' :: rest := by
    unfold trimPref
    rw [if_pos (by simp [List.isPrefixOf]), show ("- ".toList).length = 2 from rfl]
    rfl
  have hout : trimPref ("* ".toList) ('*' :: ' ' :: rest) = rest := by
    unfold trimPref
    rw [if_pos (by simp [List.isPrefixOf]), show ("* ".toList).length = 2 from rfl]
    rfl
  rw [hin, hout]

end LlmCli
